import Mathlib

/-!
Verification of the event-extraction and event-graph core of the
event-planned story-generation repository.

The Python sources are embedded shallowly:
* Python strings are modelled as `List Char` where character-level
  operations (split / strip / replace / join) matter, and as `String`
  where the code only moves whole strings around.
* `config/event_tags.py` tag lists become `List String` constants.
* spaCy tokens are modelled by the narrow interface the code reads:
  `text`, `dep_`, `head.text`; a parsed sentence (`Doc`) is a list of
  tokens, and a token's `i` attribute is its position in that list.
* The `networkx` graph is modelled as association lists for nodes
  (key, frequency) and edges ((source, target), weight); the builder
  uses the default directed graph.
* Fallible code returns `Except`, paired with the (unchanged or new)
  state; file-system effects are recorded as an explicit write list.
-/

namespace EventStoryGen

/-! ### Tag configuration, from `config/event_tags.py` -/

def subject_tags : List String :=
  ["csubj", "csubjpass", "nsubj", "nsubjpass"]

def trigger_tags : List String :=
  ["ROOT"]

def modifier_tags : List String :=
  ["neg", "prt", "advmod", "amod"]

def agent_tags : List String :=
  ["agent"] ++ subject_tags

def comp_tags : List String :=
  ["dobj", "acomp", "ccomp", "xcomp", "oprd", "attr", "pobj", "dative", "npadvmod"]

/-! ### Parsed tokens (external spaCy input, the fields the code reads) -/

structure Tok where
  text : String
  dep : String
  headText : String
deriving DecidableEq

/-- `EventExtractor.__get_trigger_info`: scan tokens in order, return
`(token.text, token.i)` for the first token whose dependency label is in
`trigger_tags`; `token.i` is the token's position in the doc, carried
here by the counter `i`. -/
def getTriggerInfoAux : List Tok → Nat → Option (String × Nat)
  | [], _ => none
  | t :: rest, i =>
    if t.dep ∈ trigger_tags then some (t.text, i) else getTriggerInfoAux rest (i + 1)

def getTriggerInfo (doc : List Tok) : Option (String × Nat) :=
  getTriggerInfoAux doc 0

/-- `EventExtractor.__get_args`: scan all tokens; for each token whose
head text equals the trigger text, append `(token.text, token.i)` to the
modifier / agent / complement list picked by the if/elif/elif chain on
its dependency label. Returns `(modifiers, agents, comps)`. -/
def getArgsAux (trigger : String) : List Tok → Nat →
    List (String × Nat) × List (String × Nat) × List (String × Nat)
  | [], _ => ([], [], [])
  | t :: rest, i =>
    let r := getArgsAux trigger rest (i + 1)
    if t.headText = trigger then
      if t.dep ∈ modifier_tags then ((t.text, i) :: r.1, r.2.1, r.2.2)
      else if t.dep ∈ agent_tags then (r.1, (t.text, i) :: r.2.1, r.2.2)
      else if t.dep ∈ comp_tags then (r.1, r.2.1, (t.text, i) :: r.2.2)
      else r
    else r

def getArgs (doc : List Tok) (trigger : String) :
    List (String × Nat) × List (String × Nat) × List (String × Nat) :=
  getArgsAux trigger doc 0

/-! ### `Event` (`src/event_extraction/event.py`) -/

/-- The `Event` record: the trigger word plus the `event_info` dict,
whose keys in insertion order are `trigger`, `modifiers`, `agents`,
`comps`, each an ordered list of `(text, index)` pairs. -/
structure Event where
  trigger : String
  triggerInfo : List (String × Nat)
  modifiers : List (String × Nat)
  agents : List (String × Nat)
  comps : List (String × Nat)
deriving DecidableEq

/-- `self.event_info.values()` in dict insertion order. -/
def eventInfoValues (ev : Event) : List (List (String × Nat)) :=
  [ev.triggerInfo, ev.modifiers, ev.agents, ev.comps]

/-- `Event.__str__`: flatten the `event_info` values, sort by stored
index (Python `list.sort` is stable; `List.mergeSort` is the stable
sort with the same ≤-by-key behaviour), drop components whose stripped
text is empty, join the stripped texts with single spaces. -/
def eventStr (ev : Event) : String :=
  let all_components := (eventInfoValues ev).flatten
  let sorted := all_components.mergeSort (fun a b => a.2 ≤ b.2)
  String.intercalate " " ((sorted.filter (fun c => c.1.trim ≠ "")).map (fun c => c.1.trim))

/-- The doc-level body of `EventExtractor.extract_event_from_text`
(everything after the external `nlp` call): locate the trigger, collect
the arguments, build the `Event`; `None` when no trigger is found. -/
def extract_event (doc : List Tok) : Option Event :=
  match getTriggerInfo doc with
  | none => none
  | some trigger_info =>
    let trigger := trigger_info.1
    let r := getArgs doc trigger
    some { trigger := trigger, triggerInfo := [trigger_info],
           modifiers := r.1, agents := r.2.1, comps := r.2.2 }

/-- Spec-side rendering of an event, written from the specification's
words: gather every `(text, index)` pair across the four role lists into
one flat list, sort ascending by index with a stable sort, drop entries
whose trimmed text is empty, join the surviving trimmed texts with
single spaces. Compared with `eventStr` in claim C5. -/
def specRenderEvent (ev : Event) : String :=
  let flat := ev.triggerInfo ++ ev.modifiers ++ ev.agents ++ ev.comps
  let sorted := flat.mergeSort (fun a b => a.2 ≤ b.2)
  String.intercalate " " (sorted.filterMap (fun c => if c.1.trim = "" then none else some c.1.trim))

/-- Spec-side argument collection, written from the specification's
words: for each token (at position `i`) whose head text equals the
trigger text, record `(text, i)` when its dependency label is in the
given tag set. Compared with `getArgs` in claim C6. -/
def specArgListAux (trigger : String) (tags : List String) : List Tok → Nat → List (String × Nat)
  | [], _ => []
  | t :: rest, i =>
    if t.headText = trigger ∧ t.dep ∈ tags then
      (t.text, i) :: specArgListAux trigger tags rest (i + 1)
    else specArgListAux trigger tags rest (i + 1)

def specArgList (doc : List Tok) (trigger : String) (tags : List String) : List (String × Nat) :=
  specArgListAux trigger tags doc 0

/-! ### Marker tokens

Modelled from the spec: `config/event_special_tokens.py` is not among
the provided sources.  The spec fixes three reserved marker substrings
(start, separator, end); the comments in
`src/graph_construction/event_build.py` record the start marker as
`[EVENT_s]` and the end marker as `[EVENT_e]`.  The separator's literal
is not recorded in the sources and is modelled as `[EVENT_sep]`; any
whitespace-free reserved token that is not a substring of the others
yields the same guarantees. -/

def EVENT_START : List Char := ['[', 'E', 'V', 'E', 'N', 'T', '_', 's', ']']

def EVENT_SEPERATOR : List Char := ['[', 'E', 'V', 'E', 'N', 'T', '_', 's', 'e', 'p', ']']

def EVENT_END : List Char := ['[', 'E', 'V', 'E', 'N', 'T', '_', 'e', ']']

/-! ### Python string primitives on `List Char` -/

/-- Python `str.strip()`: drop whitespace from both ends. -/
def pyStrip (l : List Char) : List Char :=
  List.reverse (List.dropWhile Char.isWhitespace (List.reverse (List.dropWhile Char.isWhitespace l)))

/-- Worker for Python `str.split(sep)` with a non-empty separator:
scan left to right, cut at each leftmost non-overlapping occurrence of
`sep`.  `acc` holds the reversed current segment; `fuel` bounds the
recursion (one unit per consumed character suffices). -/
def splitAux (sep : List Char) : Nat → List Char → List Char → List (List Char)
  | _, [], acc => [acc.reverse]
  | 0, s, acc => [acc.reverse ++ s]
  | fuel + 1, c :: rest, acc =>
    if sep.isPrefixOf (c :: rest) then
      acc.reverse :: splitAux sep fuel (rest.drop (sep.length - 1)) []
    else splitAux sep fuel rest (c :: acc)

/-- Python `s.split(sep)` for non-empty `sep`. -/
def pySplit (sep s : List Char) : List (List Char) :=
  splitAux sep s.length s []

/-- Python `s.replace(old, "", 1)` for non-empty `old`: remove the
leftmost occurrence of `old`, if any. -/
def replaceFirst (old : List Char) : List Char → List Char
  | [] => []
  | c :: rest =>
    if old.isPrefixOf (c :: rest) then (c :: rest).drop old.length
    else c :: replaceFirst old rest

/-- Python `sep.join(parts)`. -/
def pyJoin (sep : List Char) : List (List Char) → List Char
  | [] => []
  | [x] => x
  | x :: xs => x ++ sep ++ pyJoin sep xs

/-! ### Story serialization (`EventExtractor.__format_events`) and
parsing (the head of `EventGraphBuilder.build_graph`) -/

/-- `EventExtractor.__format_events` applied to already-rendered event
strings: empty list ⇒ empty string, otherwise
`EVENT_START + " " + (" " + EVENT_SEPERATOR + " ").join(events) + " " + EVENT_END`. -/
def pyRenderStory (events : List (List Char)) : List Char :=
  if events = [] then []
  else
    EVENT_START ++ [' '] ++
      pyJoin ([' '] ++ EVENT_SEPERATOR ++ [' ']) events ++
      [' '] ++ EVENT_END

/-- `build_graph`: strip `EVENT_START` from the (stripped) first
segment when present, re-stripping afterwards. -/
def fixHead (l : List (List Char)) : List (List Char) :=
  match l with
  | [] => []
  | x :: xs =>
    (if EVENT_START.isPrefixOf x then pyStrip (replaceFirst EVENT_START x) else x) :: xs

/-- `build_graph`: strip `EVENT_END` from the last segment when it ends
with it (Python `replace(..., 1)` removes the leftmost occurrence),
re-stripping afterwards. -/
def fixLastElem (x : List Char) : List Char :=
  if EVENT_END.isSuffixOf x then pyStrip (replaceFirst EVENT_END x) else x

def fixLast : List (List Char) → List (List Char)
  | [] => []
  | [x] => [fixLastElem x]
  | x :: xs => x :: fixLast xs

/-- The segment-splitting, marker-stripping, trimming and empty-dropping
step at the head of `EventGraphBuilder.build_graph`: split the stored
sequence on the separator, strip each segment, remove the start marker
from the first and the end marker from the last, drop empty segments. -/
def pyParseStory (s : List Char) : List (List Char) :=
  (fixLast (fixHead ((pySplit EVENT_SEPERATOR s).map pyStrip))).filter (fun e => !e.isEmpty)

/-- The hypotheses under which the round-trip of claim C1 holds: the
event string is non-empty, does not begin or end with whitespace, and
contains no marker substring. -/
def goodEvent (e : List Char) : Prop :=
  e ≠ [] ∧
  (∀ c, e.head? = some c → ¬ c.isWhitespace) ∧
  (∀ c, e.getLast? = some c → ¬ c.isWhitespace) ∧
  ¬ EVENT_START <:+: e ∧ ¬ EVENT_SEPERATOR <:+: e ∧ ¬ EVENT_END <:+: e

instance (e : List Char) : Decidable (goodEvent e) := by
  unfold goodEvent
  infer_instance

/-- Shape of the segments produced by splitting a rendered story on the
separator, for the events after the first. Used to state the
intermediate lemmas of claim C1. -/
def midSegs : List (List Char) → List (List Char)
  | [] => []
  | [e] => [' ' :: (e ++ ' ' :: EVENT_END)]
  | e :: es => (' ' :: (e ++ [' '])) :: midSegs es

/-- The same segments after per-segment stripping. -/
def midStripped : List (List Char) → List (List Char)
  | [] => []
  | [e] => [e ++ ' ' :: EVENT_END]
  | e :: es => e :: midStripped es

/-! ### Event graph (`src/graph_construction/event_build.py`) -/

/-- The `networkx` graph as the builder uses it: nodes keyed by event
string with a `frequency` attribute, edges keyed by (source, target)
with a `weight` attribute, kept in insertion order. -/
structure EGraph where
  nodes : List (List Char × Nat)
  edges : List ((List Char × List Char) × Nat)
deriving DecidableEq

def emptyGraph : EGraph := { nodes := [], edges := [] }

def hasKey {α : Type} [DecidableEq α] (l : List (α × Nat)) (k : α) : Bool :=
  l.any (fun p => p.1 = k)

/-- Increment the counter of the first entry with the given key. -/
def incFirst {α : Type} [DecidableEq α] : List (α × Nat) → α → List (α × Nat)
  | [], _ => []
  | (k, v) :: rest, e => if k = e then (k, v + 1) :: rest else (k, v) :: incFirst rest e

/-- `if event not in self.graph: add_node(event, frequency=0)` followed
by `self.graph.nodes[event]['frequency'] += 1`. -/
def bumpNode (g : EGraph) (e : List Char) : EGraph :=
  let ns := if hasKey g.nodes e then g.nodes else g.nodes ++ [(e, 0)]
  { g with nodes := incFirst ns e }

/-- `if has_edge(prev, event): weight += 1 else: add_edge(prev, event, weight=1)`. -/
def bumpEdge (g : EGraph) (u v : List Char) : EGraph :=
  if hasKey g.edges (u, v) then { g with edges := incFirst g.edges (u, v) }
  else { g with edges := g.edges ++ [((u, v), 1)] }

/-- The per-event loop of `build_graph` from the second event on:
`prev` is the previous event; the `Nat` component counts edge
creations-or-weight-increments. -/
def processFrom : EGraph → List Char → List (List Char) → Nat → EGraph × Nat
  | g, _, [], ops => (g, ops)
  | g, prev, e :: rest, ops => processFrom (bumpEdge (bumpNode g e) prev e) e rest (ops + 1)

/-- The per-story loop of `build_graph` over the surviving events
(the first event gets no edge). -/
def processStory (g : EGraph) : List (List Char) → EGraph × Nat
  | [] => (g, 0)
  | e :: rest => processFrom (bumpNode g e) e rest 0

/-- One story of `build_graph`: parse the stored sequence, then run the
node/edge loop (an empty parse contributes nothing). -/
def buildStory (g : EGraph) (seq : List Char) : EGraph × Nat :=
  processStory g (pyParseStory seq)

inductive BuildErr where
  | graphAlreadyBuilt
deriving DecidableEq

/-- `EventGraphBuilder.build_graph`: refuse when the graph already has
nodes (raising before any mutation, so the state is returned unchanged),
otherwise fold the per-story loop over the column of sequences. -/
def build_graph (g : EGraph) (seqs : List (List Char)) : Except BuildErr Unit × EGraph :=
  if g.nodes.length > 0 then (Except.error BuildErr.graphAlreadyBuilt, g)
  else (Except.ok (), seqs.foldl (fun h seq => (buildStory h seq).1) g)

def nodeMass (g : EGraph) : Nat := (g.nodes.map Prod.snd).sum

def edgeMass (g : EGraph) : Nat := (g.edges.map Prod.snd).sum

/-- Every node frequency and every edge weight is at least 1. -/
def posGraph (g : EGraph) : Prop :=
  (∀ p ∈ g.nodes, 1 ≤ p.2) ∧ (∀ q ∈ g.edges, 1 ≤ q.2)

instance (g : EGraph) : Decidable (posGraph g) := by
  unfold posGraph
  infer_instance

/-! ### Graph persistence (`save_graph_pickle` / `save_graph_gexf`)

The save paths go through `dir.GRAPH_DIR / filename` where `dir` is
`config/dir.py`; that module defines `GRAPH_DATA_DIR` but no
`GRAPH_DIR`, so the attribute access is modelled by a lookup in the
module's attribute table. -/

inductive PyExc where
  | attributeError
  | valueError
deriving DecidableEq

inductive FsWrite where
  | mkdirParents (p : String)
  | file (p : String)
deriving DecidableEq

/-- The module-level names defined by `config/dir.py`. -/
def configDirAttrs : List String :=
  ["BASE_DIR", "DATA_DIR", "ROCSTORIES_DIR", "PROCESSED_DATA_DIR",
   "RAW_DATA_DIR", "GRAPH_DATA_DIR", "update_directories"]

/-- `getattr(config.dir, name)`: the looked-up value is kept symbolic
(the name itself); `none` models `AttributeError`. -/
def dirGetattr (name : String) : Option String :=
  if name ∈ configDirAttrs then some name else none

/-- `EventGraphBuilder.save_graph_pickle`: fix the extension, resolve
`dir.GRAPH_DIR`, create the parent directory, refuse an empty graph,
else write the pickle.  Returns the file-system writes performed and
the outcome. -/
def save_graph_pickle (g : EGraph) (filename : String) : List FsWrite × Except PyExc Unit :=
  let fn := if filename.endsWith ".gpickle" then filename else filename ++ ".gpickle"
  match dirGetattr "GRAPH_DIR" with
  | none => ([], Except.error PyExc.attributeError)
  | some d =>
    let filepath := d ++ "/" ++ fn
    if g.nodes.length = 0 then ([FsWrite.mkdirParents d], Except.error PyExc.valueError)
    else ([FsWrite.mkdirParents d, FsWrite.file filepath], Except.ok ())

/-- `EventGraphBuilder.save_graph_gexf`, same structure with the
`.gexf` extension. -/
def save_graph_gexf (g : EGraph) (filename : String) : List FsWrite × Except PyExc Unit :=
  let fn := if filename.endsWith ".gexf" then filename else filename ++ ".gexf"
  match dirGetattr "GRAPH_DIR" with
  | none => ([], Except.error PyExc.attributeError)
  | some d =>
    let filepath := d ++ "/" ++ fn
    if g.nodes.length = 0 then ([FsWrite.mkdirParents d], Except.error PyExc.valueError)
    else ([FsWrite.mkdirParents d, FsWrite.file filepath], Except.ok ())

/-! ## Helper lemmas: association-list counters -/

theorem hasKey_nil {α : Type} [DecidableEq α] (e : α) : hasKey ([] : List (α × Nat)) e = false := rfl

theorem incFirst_snd_sum {α : Type} [DecidableEq α] (ns : List (α × Nat)) (e : α)
    (h : hasKey ns e = true) :
    ((incFirst ns e).map Prod.snd).sum = ((ns.map Prod.snd).sum) + 1 := by
  induction ns with
  | nil => simp [hasKey] at h
  | cons p rest ih =>
    obtain ⟨k, v⟩ := p
    by_cases hk : k = e
    · simp [incFirst, hk]
      omega
    · have h' : hasKey rest e = true := by
        simpa [hasKey, hk] using h
      simp [incFirst, hk, ih h']
      omega

theorem incFirst_pos {α : Type} [DecidableEq α] (ns : List (α × Nat)) (e : α)
    (h : ∀ p ∈ ns, 1 ≤ p.2) : ∀ p ∈ incFirst ns e, 1 ≤ p.2 := by
  induction ns with
  | nil => simp [incFirst]
  | cons q rest ih =>
    obtain ⟨k, v⟩ := q
    by_cases hk : k = e
    · simp only [incFirst, if_pos hk]
      intro p hp
      rcases List.mem_cons.mp hp with h1 | h2
      · subst h1; omega
      · exact h p (List.mem_cons_of_mem _ h2)
    · simp only [incFirst, if_neg hk]
      intro p hp
      rcases List.mem_cons.mp hp with h1 | h2
      · subst h1
        exact h (k, v) (List.mem_cons_self (k, v) rest)
      · exact ih (fun q hq => h q (List.mem_cons_of_mem _ hq)) p h2

theorem incFirst_fresh {α : Type} [DecidableEq α] (ns : List (α × Nat)) (e : α)
    (h : hasKey ns e = false) :
    incFirst (ns ++ [(e, 0)]) e = ns ++ [(e, 1)] := by
  induction ns with
  | nil => simp [incFirst]
  | cons p rest ih =>
    obtain ⟨k, v⟩ := p
    have hsplit : ¬ k = e ∧ ∀ a b, (a, b) ∈ rest → ¬ a = e := by
      simpa [hasKey] using h
    have h' : hasKey rest e = false := by
      simp [hasKey]
      exact hsplit.2
    simp [incFirst, hsplit.1, ih h']

theorem hasKey_append_self {α : Type} [DecidableEq α] (ns : List (α × Nat)) (e : α) (v : Nat) :
    hasKey (ns ++ [(e, v)]) e = true := by
  simp [hasKey]

/-! ## Helper lemmas: node/edge bumps -/

theorem bumpNode_nodeMass (g : EGraph) (e : List Char) :
    nodeMass (bumpNode g e) = nodeMass g + 1 := by
  unfold bumpNode nodeMass
  by_cases h : hasKey g.nodes e
  · simp only [if_pos h]
    exact incFirst_snd_sum _ _ h
  · simp only [if_neg h]
    have := incFirst_snd_sum (g.nodes ++ [(e, 0)]) e (hasKey_append_self _ _ _)
    simp only [this]
    simp

theorem bumpNode_edges (g : EGraph) (e : List Char) : (bumpNode g e).edges = g.edges := rfl

theorem bumpEdge_nodes (g : EGraph) (u v : List Char) : (bumpEdge g u v).nodes = g.nodes := by
  unfold bumpEdge
  by_cases h : hasKey g.edges (u, v) <;> simp [h]

theorem bumpEdge_nodeMass (g : EGraph) (u v : List Char) :
    nodeMass (bumpEdge g u v) = nodeMass g := by
  unfold nodeMass
  rw [bumpEdge_nodes]

theorem bumpNode_edgeMass (g : EGraph) (e : List Char) :
    edgeMass (bumpNode g e) = edgeMass g := rfl

theorem bumpEdge_edgeMass (g : EGraph) (u v : List Char) :
    edgeMass (bumpEdge g u v) = edgeMass g + 1 := by
  unfold bumpEdge edgeMass
  by_cases h : hasKey g.edges (u, v)
  · simp only [if_pos h]
    exact incFirst_snd_sum _ _ h
  · simp only [if_neg h]
    simp

theorem bumpNode_pos (g : EGraph) (e : List Char) (h : posGraph g) : posGraph (bumpNode g e) := by
  obtain ⟨hn, he⟩ := h
  constructor
  · show ∀ p ∈ (bumpNode g e).nodes, 1 ≤ p.2
    unfold bumpNode
    by_cases hk : hasKey g.nodes e
    · simp only [if_pos hk]
      exact incFirst_pos _ _ hn
    · simp only [if_neg hk]
      rw [incFirst_fresh _ _ (Bool.eq_false_iff.mpr hk)]
      intro p hp
      rcases List.mem_append.mp hp with h1 | h2
      · exact hn p h1
      · simp only [List.mem_singleton] at h2
        simp [h2]
  · exact he

theorem bumpEdge_pos (g : EGraph) (u v : List Char) (h : posGraph g) :
    posGraph (bumpEdge g u v) := by
  obtain ⟨hn, he⟩ := h
  unfold bumpEdge
  by_cases hk : hasKey g.edges (u, v)
  · simp only [if_pos hk]
    exact ⟨hn, incFirst_pos _ _ he⟩
  · simp only [if_neg hk]
    refine ⟨hn, ?_⟩
    intro q hq
    rcases List.mem_append.mp hq with h1 | h2
    · exact he q h1
    · simp only [List.mem_singleton] at h2
      simp [h2]

/-! ## Helper lemmas: the per-story loops -/

theorem processFrom_spec (l : List (List Char)) : ∀ (g : EGraph) (prev : List Char) (ops : Nat),
    nodeMass (processFrom g prev l ops).1 = nodeMass g + l.length ∧
    edgeMass (processFrom g prev l ops).1 = edgeMass g + l.length ∧
    (processFrom g prev l ops).2 = ops + l.length := by
  induction l with
  | nil => intro g prev ops; simp [processFrom]
  | cons e rest ih =>
    intro g prev ops
    obtain ⟨h1, h2, h3⟩ := ih (bumpEdge (bumpNode g e) prev e) e (ops + 1)
    refine ⟨?_, ?_, ?_⟩
    · show nodeMass (processFrom (bumpEdge (bumpNode g e) prev e) e rest (ops + 1)).1 = _
      rw [h1, bumpEdge_nodeMass, bumpNode_nodeMass, List.length_cons]
      omega
    · show edgeMass (processFrom (bumpEdge (bumpNode g e) prev e) e rest (ops + 1)).1 = _
      rw [h2, bumpEdge_edgeMass, bumpNode_edgeMass, List.length_cons]
      omega
    · show (processFrom (bumpEdge (bumpNode g e) prev e) e rest (ops + 1)).2 = _
      rw [h3, List.length_cons]
      omega

theorem processStory_spec (g : EGraph) (evs : List (List Char)) :
    nodeMass (processStory g evs).1 = nodeMass g + evs.length ∧
    edgeMass (processStory g evs).1 = edgeMass g + (evs.length - 1) ∧
    (processStory g evs).2 = evs.length - 1 := by
  cases evs with
  | nil => simp [processStory]
  | cons e rest =>
    obtain ⟨h1, h2, h3⟩ := processFrom_spec rest (bumpNode g e) e 0
    refine ⟨?_, ?_, ?_⟩
    · show nodeMass (processFrom (bumpNode g e) e rest 0).1 = _
      rw [h1, bumpNode_nodeMass, List.length_cons]
      omega
    · show edgeMass (processFrom (bumpNode g e) e rest 0).1 = _
      rw [h2, bumpNode_edgeMass, List.length_cons]
      omega
    · show (processFrom (bumpNode g e) e rest 0).2 = _
      rw [h3, List.length_cons]
      omega

theorem processFrom_pos (l : List (List Char)) : ∀ (g : EGraph) (prev : List Char) (ops : Nat),
    posGraph g → posGraph (processFrom g prev l ops).1 := by
  induction l with
  | nil => intro g prev ops h; simpa [processFrom] using h
  | cons e rest ih =>
    intro g prev ops h
    exact ih _ e (ops + 1) (bumpEdge_pos _ _ _ (bumpNode_pos _ _ h))

theorem processStory_pos (g : EGraph) (evs : List (List Char)) (h : posGraph g) :
    posGraph (processStory g evs).1 := by
  cases evs with
  | nil => simpa [processStory] using h
  | cons e rest => exact processFrom_pos rest _ e 0 (bumpNode_pos _ _ h)

theorem buildFold_pos (seqs : List (List Char)) : ∀ (g : EGraph), posGraph g →
    posGraph (seqs.foldl (fun h seq => (buildStory h seq).1) g) := by
  induction seqs with
  | nil => intro g h; simpa using h
  | cons s rest ih =>
    intro g h
    exact ih _ (processStory_pos _ _ h)

/-! ## Claim theorems: graph builder -/

/-- C2: for every story whose parsed event list (after marker stripping,
trimming, and dropping empty events) has `k` events, processing that
story adds exactly `k` to the total node-frequency mass and performs
exactly `k - 1` edge creations-or-weight-increments (equivalently, adds
`k - 1` to the total edge-weight mass); `0` when `k ≤ 1`. -/
theorem build_story_accounting (g : EGraph) (seq : List Char) (k : Nat)
    (hk : (pyParseStory seq).length = k) :
    nodeMass (buildStory g seq).1 = nodeMass g + k ∧
    (buildStory g seq).2 = k - 1 ∧
    edgeMass (buildStory g seq).1 = edgeMass g + (k - 1) := by
  obtain ⟨h1, h2, h3⟩ := processStory_spec g (pyParseStory seq)
  rw [hk] at h1 h2 h3
  exact ⟨h1, h3, h2⟩

theorem build_story_accounting_witness :
    nodeMass (buildStory emptyGraph (pyRenderStory [['A'], ['B'], ['A']])).1 = nodeMass emptyGraph + 3 ∧
    (buildStory emptyGraph (pyRenderStory [['A'], ['B'], ['A']])).2 = 3 - 1 ∧
    edgeMass (buildStory emptyGraph (pyRenderStory [['A'], ['B'], ['A']])).1 = edgeMass emptyGraph + (3 - 1) :=
  build_story_accounting emptyGraph (pyRenderStory [['A'], ['B'], ['A']]) 3 (by decide)

/-- C3: a second `build_graph` call on an instance whose graph already
has at least one node fails with the `GraphAlreadyBuilt` condition
(`ValueError`), and since the check precedes all mutation the graph is
returned exactly as it was after the first successful build. -/
theorem build_graph_twice (seqs1 seqs2 : List (List Char)) (g1 : EGraph)
    (r1 : Except BuildErr Unit) (_h1 : build_graph emptyGraph seqs1 = (r1, g1))
    (hne : g1.nodes ≠ []) :
    build_graph g1 seqs2 = (Except.error BuildErr.graphAlreadyBuilt, g1) := by
  unfold build_graph
  rw [if_pos]
  exact List.length_pos.mpr hne

theorem build_graph_twice_witness :
    build_graph (build_graph emptyGraph [pyRenderStory [['A']]]).2 [pyRenderStory [['A']]]
      = (Except.error BuildErr.graphAlreadyBuilt, (build_graph emptyGraph [pyRenderStory [['A']]]).2) :=
  build_graph_twice [pyRenderStory [['A']]] [pyRenderStory [['A']]]
    (build_graph emptyGraph [pyRenderStory [['A']]]).2
    (build_graph emptyGraph [pyRenderStory [['A']]]).1 rfl (by decide)

/-- C9: a build from the empty graph always succeeds, and afterwards
every node frequency and every edge weight in the resulting graph is at
least 1 — a node or edge is created only immediately before its counter
is incremented, so no zero-count node or edge is observable. -/
theorem build_from_empty_pos (seqs : List (List Char)) (r : Except BuildErr Unit) (g' : EGraph)
    (h : build_graph emptyGraph seqs = (r, g')) : posGraph g' ∧ r = Except.ok () := by
  unfold build_graph at h
  simp only [emptyGraph, List.length_nil, gt_iff_lt, Nat.lt_irrefl, if_false] at h
  have hg : g' = seqs.foldl (fun h seq => (buildStory h seq).1) emptyGraph := by
    have := congrArg Prod.snd h
    simpa using this.symm
  have hr : r = Except.ok () := by
    have := congrArg Prod.fst h
    simpa using this.symm
  subst hg
  refine ⟨buildFold_pos seqs emptyGraph ?_, hr⟩
  exact ⟨by simp [emptyGraph], by simp [emptyGraph]⟩

theorem build_from_empty_pos_witness :
    posGraph (build_graph emptyGraph [pyRenderStory [['A'], ['B']]]).2 ∧
    (build_graph emptyGraph [pyRenderStory [['A'], ['B']]]).1 = Except.ok () :=
  build_from_empty_pos [pyRenderStory [['A'], ['B']]]
    (build_graph emptyGraph [pyRenderStory [['A'], ['B']]]).1
    (build_graph emptyGraph [pyRenderStory [['A'], ['B']]]).2 rfl

/-! ## Claim theorem: persistence on the empty graph -/

/-- C8: saving an empty graph fails and writes no file, but not with
the `EmptyGraph` condition the spec requires: both save paths resolve
`dir.GRAPH_DIR`, which `config/dir.py` does not define (it defines
`GRAPH_DATA_DIR`), so the call fails with `AttributeError` before the
empty-graph check is reached. -/
theorem save_empty_graph_attribute_error (g : EGraph) (fn : String) (_h : g.nodes = []) :
    save_graph_pickle g fn = ([], Except.error PyExc.attributeError) ∧
    save_graph_gexf g fn = ([], Except.error PyExc.attributeError) := by
  constructor <;> rfl

theorem save_empty_graph_attribute_error_witness :
    save_graph_pickle emptyGraph "event_graph" = ([], Except.error PyExc.attributeError) ∧
    save_graph_gexf emptyGraph "event_graph" = ([], Except.error PyExc.attributeError) :=
  save_empty_graph_attribute_error emptyGraph "event_graph" rfl

/-! ## Helper lemmas: trigger location and argument collection -/

theorem getTriggerInfoAux_none (doc : List Tok) : ∀ i,
    (getTriggerInfoAux doc i = none ↔ ∀ t ∈ doc, t.dep ∉ trigger_tags) := by
  induction doc with
  | nil => intro i; simp [getTriggerInfoAux]
  | cons t rest ih =>
    intro i
    by_cases h : t.dep ∈ trigger_tags
    · simp [getTriggerInfoAux, h]
    · simp [getTriggerInfoAux, h, ih (i + 1)]

theorem getTriggerInfoAux_some (doc : List Tok) : ∀ i txt j,
    getTriggerInfoAux doc i = some (txt, j) →
    ∃ pre t post, doc = pre ++ t :: post ∧ i + pre.length = j ∧
      t.dep ∈ trigger_tags ∧ txt = t.text ∧ ∀ u ∈ pre, u.dep ∉ trigger_tags := by
  induction doc with
  | nil => intro i txt j h; simp [getTriggerInfoAux] at h
  | cons t rest ih =>
    intro i txt j h
    by_cases ht : t.dep ∈ trigger_tags
    · simp only [getTriggerInfoAux, if_pos ht, Option.some.injEq, Prod.mk.injEq] at h
      exact ⟨[], t, rest, by simp, by simp [h.2], ht, h.1.symm, by simp⟩
    · simp only [getTriggerInfoAux, if_neg ht] at h
      obtain ⟨pre, u, post, hdoc, hlen, hu, htxt, hpre⟩ := ih (i + 1) txt j h
      refine ⟨t :: pre, u, post, by simp [hdoc], by simp; omega, hu, htxt, ?_⟩
      intro w hw
      rcases List.mem_cons.mp hw with h1 | h2
      · rw [h1]; exact ht
      · exact hpre w h2

theorem tags_disjoint :
    (∀ s ∈ modifier_tags, s ∉ agent_tags) ∧ (∀ s ∈ modifier_tags, s ∉ comp_tags) ∧
    (∀ s ∈ agent_tags, s ∉ comp_tags) := by decide

theorem getArgsAux_spec (trigger : String) (doc : List Tok) : ∀ i,
    (getArgsAux trigger doc i).1 = specArgListAux trigger modifier_tags doc i ∧
    (getArgsAux trigger doc i).2.1 = specArgListAux trigger agent_tags doc i ∧
    (getArgsAux trigger doc i).2.2 = specArgListAux trigger comp_tags doc i := by
  induction doc with
  | nil => intro i; simp [getArgsAux, specArgListAux]
  | cons t rest ih =>
    intro i
    obtain ⟨ih1, ih2, ih3⟩ := ih (i + 1)
    by_cases hh : t.headText = trigger
    · by_cases hm : t.dep ∈ modifier_tags
      · have hna : t.dep ∉ agent_tags := tags_disjoint.1 _ hm
        have hnc : t.dep ∉ comp_tags := tags_disjoint.2.1 _ hm
        simp [getArgsAux, specArgListAux, hh, hm, hna, hnc, ih1, ih2, ih3]
      · by_cases ha : t.dep ∈ agent_tags
        · have hnc : t.dep ∉ comp_tags := tags_disjoint.2.2 _ ha
          simp [getArgsAux, specArgListAux, hh, hm, ha, hnc, ih1, ih2, ih3]
        · by_cases hc : t.dep ∈ comp_tags
          · simp [getArgsAux, specArgListAux, hh, hm, ha, hc, ih1, ih2, ih3]
          · simp [getArgsAux, specArgListAux, hh, hm, ha, hc, ih1, ih2, ih3]
    · simp [getArgsAux, specArgListAux, hh, ih1, ih2, ih3]

theorem specArgListAux_mem (trigger : String) (tags : List String) (doc : List Tok) :
    ∀ i x j, (x, j) ∈ specArgListAux trigger tags doc i →
    ∃ pre t post, doc = pre ++ t :: post ∧ i + pre.length = j ∧
      t.text = x ∧ t.headText = trigger ∧ t.dep ∈ tags := by
  induction doc with
  | nil => intro i x j h; simp [specArgListAux] at h
  | cons t rest ih =>
    intro i x j h
    by_cases hc : t.headText = trigger ∧ t.dep ∈ tags
    · simp only [specArgListAux, if_pos hc] at h
      rcases List.mem_cons.mp h with h1 | h2
      · have hx : x = t.text ∧ j = i := by
          simpa [Prod.ext_iff] using h1
        exact ⟨[], t, rest, by simp, by simp [hx.2], hx.1.symm, hc.1, hc.2⟩
      · obtain ⟨pre, u, post, hdoc, hlen, hx, hhd, hdep⟩ := ih (i + 1) x j h2
        exact ⟨t :: pre, u, post, by simp [hdoc], by simp; omega, hx, hhd, hdep⟩
    · simp only [specArgListAux, if_neg hc] at h
      obtain ⟨pre, u, post, hdoc, hlen, hx, hhd, hdep⟩ := ih (i + 1) x j h
      exact ⟨t :: pre, u, post, by simp [hdoc], by simp; omega, hx, hhd, hdep⟩

theorem getTriggerInfo_none (doc : List Tok) :
    getTriggerInfo doc = none ↔ ∀ t ∈ doc, t.dep ∉ trigger_tags := by
  unfold getTriggerInfo
  exact getTriggerInfoAux_none doc 0

theorem getTriggerInfo_some (doc : List Tok) (txt : String) (j : Nat)
    (h : getTriggerInfo doc = some (txt, j)) :
    ∃ pre t post, doc = pre ++ t :: post ∧ pre.length = j ∧
      t.dep ∈ trigger_tags ∧ txt = t.text ∧ ∀ u ∈ pre, u.dep ∉ trigger_tags := by
  unfold getTriggerInfo at h
  obtain ⟨pre, t, post, hdoc, hlen, ht, htxt, hpre⟩ := getTriggerInfoAux_some doc 0 txt j h
  exact ⟨pre, t, post, hdoc, by omega, ht, htxt, hpre⟩

theorem getArgs_spec (doc : List Tok) (trigger : String) :
    (getArgs doc trigger).1 = specArgList doc trigger modifier_tags ∧
    (getArgs doc trigger).2.1 = specArgList doc trigger agent_tags ∧
    (getArgs doc trigger).2.2 = specArgList doc trigger comp_tags := by
  unfold getArgs specArgList
  exact getArgsAux_spec trigger doc 0

theorem specArgList_mem (doc : List Tok) (trigger : String) (tags : List String)
    (x : String) (j : Nat) (h : (x, j) ∈ specArgList doc trigger tags) :
    ∃ pre t post, doc = pre ++ t :: post ∧ pre.length = j ∧
      t.text = x ∧ t.headText = trigger ∧ t.dep ∈ tags := by
  unfold specArgList at h
  obtain ⟨pre, t, post, hdoc, hlen, hx, hhd, hdep⟩ := specArgListAux_mem trigger tags doc 0 x j h
  exact ⟨pre, t, post, hdoc, by omega, hx, hhd, hdep⟩

/-! ## Claim theorems: event extraction -/

/-- C4: for every parsed sentence, extraction returns `None` exactly
when no token's dependency label is in the trigger-tag set (which is
exactly `["ROOT"]`); otherwise the extracted event's trigger is the
text of the first token, in sequence order, whose dependency label is
in that set. -/
theorem extract_event_trigger (doc : List Tok) :
    (extract_event doc = none ↔ ∀ t ∈ doc, t.dep ∉ trigger_tags) ∧
    (∀ ev, extract_event doc = some ev →
      ∃ pre t post, doc = pre ++ t :: post ∧ t.dep ∈ trigger_tags ∧
        ev.trigger = t.text ∧ ∀ u ∈ pre, u.dep ∉ trigger_tags) ∧
    trigger_tags = ["ROOT"] := by
  refine ⟨?_, ?_, rfl⟩
  · constructor
    · intro h
      rw [← getTriggerInfo_none]
      unfold extract_event at h
      cases hgt : getTriggerInfo doc with
      | none => rfl
      | some ti =>
        rw [hgt] at h
        exact absurd h (by simp)
    · intro h
      unfold extract_event
      rw [(getTriggerInfo_none doc).mpr h]
  · intro ev hev
    unfold extract_event at hev
    cases hgt : getTriggerInfo doc with
    | none =>
      rw [hgt] at hev
      exact absurd hev (by simp)
    | some ti =>
      rw [hgt] at hev
      simp only [Option.some.injEq] at hev
      obtain ⟨pre, t, post, hdoc, hlen, ht, htxt, hpre⟩ :=
        getTriggerInfo_some doc ti.1 ti.2 (by rw [hgt])
      refine ⟨pre, t, post, hdoc, ht, ?_, hpre⟩
      rw [← hev]
      exact htxt

theorem extract_event_trigger_witness :
    extract_event [⟨"The", "det", "cat"⟩, ⟨"cat", "nsubj", "sleeps"⟩] = none :=
  (extract_event_trigger [⟨"The", "det", "cat"⟩, ⟨"cat", "nsubj", "sleeps"⟩]).1.mpr (by decide)

/-- C6: the modifier, agent and complement tag sets are pairwise
disjoint, and the three collected argument lists are exactly the
tokens whose head text equals the trigger text filtered by plain
membership of the respective tag set — so every such token lands in at
most one list, and a token whose label is in none of the sets is
ignored. Head matching is text equality, so children of any token with
the trigger's surface text are collected. -/
theorem get_args_classification (doc : List Tok) (trigger : String) :
    ((∀ s ∈ modifier_tags, s ∉ agent_tags) ∧ (∀ s ∈ modifier_tags, s ∉ comp_tags) ∧
     (∀ s ∈ agent_tags, s ∉ comp_tags)) ∧
    (getArgs doc trigger).1 = specArgList doc trigger modifier_tags ∧
    (getArgs doc trigger).2.1 = specArgList doc trigger agent_tags ∧
    (getArgs doc trigger).2.2 = specArgList doc trigger comp_tags := by
  refine ⟨tags_disjoint, ?_, ?_, ?_⟩
  · exact (getArgsAux_spec trigger doc 0).1
  · exact (getArgsAux_spec trigger doc 0).2.1
  · exact (getArgsAux_spec trigger doc 0).2.2

theorem get_args_classification_witness :
    (getArgs [⟨"The", "det", "cat"⟩, ⟨"cat", "nsubj", "sleeps"⟩, ⟨"sleeps", "ROOT", "sleeps"⟩]
      "sleeps").2.1
      = specArgList [⟨"The", "det", "cat"⟩, ⟨"cat", "nsubj", "sleeps"⟩, ⟨"sleeps", "ROOT", "sleeps"⟩]
          "sleeps" agent_tags :=
  (get_args_classification
    [⟨"The", "det", "cat"⟩, ⟨"cat", "nsubj", "sleeps"⟩, ⟨"sleeps", "ROOT", "sleeps"⟩]
    "sleeps").2.2.1

/-- C10: the trigger token is never classified into the modifier, agent
or complement lists: the trigger's label lies in `trigger_tags`, which
is disjoint from all three argument tag sets, so in every extracted
event the trigger's `(text, index)` pair appears only in the trigger
role list. -/
theorem trigger_not_in_args (doc : List Tok) (ev : Event) (h : extract_event doc = some ev) :
    (∀ s ∈ trigger_tags, s ∉ modifier_tags ∧ s ∉ agent_tags ∧ s ∉ comp_tags) ∧
    ∃ p, ev.triggerInfo = [p] ∧ p ∉ ev.modifiers ∧ p ∉ ev.agents ∧ p ∉ ev.comps := by
  refine ⟨by decide, ?_⟩
  unfold extract_event at h
  cases hgt : getTriggerInfo doc with
  | none =>
    rw [hgt] at h
    exact absurd h (by simp)
  | some ti =>
    rw [hgt] at h
    simp only [Option.some.injEq] at h
    obtain ⟨pre0, t0, post0, hdoc0, hlen0, ht0, htxt0, _⟩ :=
      getTriggerInfo_some doc ti.1 ti.2 (by rw [hgt])
    have hdep0 : t0.dep = "ROOT" := by
      simpa [trigger_tags] using ht0
    refine ⟨ti, by rw [← h], ?_, ?_, ?_⟩
    · intro hmem
      rw [← h] at hmem
      have hmem' : ti ∈ (getArgs doc ti.1).1 := hmem
      rw [(getArgs_spec doc ti.1).1] at hmem'
      obtain ⟨pre1, t1, post1, hdoc1, hlen1, _, _, hdep1⟩ :=
        specArgList_mem doc ti.1 modifier_tags ti.1 ti.2 hmem'
      have hpre : pre0.length = pre1.length := by omega
      have heq : pre0 = pre1 ∧ t0 :: post0 = t1 :: post1 :=
        List.append_inj (by rw [← hdoc0, ← hdoc1]) hpre
      have ht01 : t0 = t1 := by
        injection heq.2
      rw [← ht01, hdep0] at hdep1
      exact absurd hdep1 (by decide)
    · intro hmem
      rw [← h] at hmem
      have hmem' : ti ∈ (getArgs doc ti.1).2.1 := hmem
      rw [(getArgs_spec doc ti.1).2.1] at hmem'
      obtain ⟨pre1, t1, post1, hdoc1, hlen1, _, _, hdep1⟩ :=
        specArgList_mem doc ti.1 agent_tags ti.1 ti.2 hmem'
      have hpre : pre0.length = pre1.length := by omega
      have heq : pre0 = pre1 ∧ t0 :: post0 = t1 :: post1 :=
        List.append_inj (by rw [← hdoc0, ← hdoc1]) hpre
      have ht01 : t0 = t1 := by
        injection heq.2
      rw [← ht01, hdep0] at hdep1
      exact absurd hdep1 (by decide)
    · intro hmem
      rw [← h] at hmem
      have hmem' : ti ∈ (getArgs doc ti.1).2.2 := hmem
      rw [(getArgs_spec doc ti.1).2.2] at hmem'
      obtain ⟨pre1, t1, post1, hdoc1, hlen1, _, _, hdep1⟩ :=
        specArgList_mem doc ti.1 comp_tags ti.1 ti.2 hmem'
      have hpre : pre0.length = pre1.length := by omega
      have heq : pre0 = pre1 ∧ t0 :: post0 = t1 :: post1 :=
        List.append_inj (by rw [← hdoc0, ← hdoc1]) hpre
      have ht01 : t0 = t1 := by
        injection heq.2
      rw [← ht01, hdep0] at hdep1
      exact absurd hdep1 (by decide)

theorem trigger_not_in_args_witness :
    (∀ s ∈ trigger_tags, s ∉ modifier_tags ∧ s ∉ agent_tags ∧ s ∉ comp_tags) ∧
    ∃ p, (Event.mk "sleeps" [("sleeps", 2)] [] [("cat", 1)] []).triggerInfo = [p] ∧
      p ∉ (Event.mk "sleeps" [("sleeps", 2)] [] [("cat", 1)] []).modifiers ∧
      p ∉ (Event.mk "sleeps" [("sleeps", 2)] [] [("cat", 1)] []).agents ∧
      p ∉ (Event.mk "sleeps" [("sleeps", 2)] [] [("cat", 1)] []).comps :=
  trigger_not_in_args
    [⟨"The", "det", "cat"⟩, ⟨"cat", "nsubj", "sleeps"⟩, ⟨"sleeps", "ROOT", "sleeps"⟩]
    (Event.mk "sleeps" [("sleeps", 2)] [] [("cat", 1)] []) (by decide)

/-! ## Claim theorem: event rendering -/

theorem filter_map_trim (l : List (String × Nat)) :
    (l.filter (fun c => c.1.trim ≠ "")).map (fun c => c.1.trim)
      = l.filterMap (fun c => if c.1.trim = "" then none else some c.1.trim) := by
  induction l with
  | nil => rfl
  | cons c rest ih =>
    simp only [ne_eq, decide_not] at ih
    by_cases h : c.1.trim = ""
    · simp [List.filter_cons, h, ih]
    · simp [List.filter_cons, h, ih]

/-- C5: `Event.__str__` renders exactly as the spec describes: flatten
the `(text, index)` pairs of the four role lists (in dict order
trigger, modifiers, agents, comps), stable-sort ascending by index,
drop entries whose trimmed text is empty, and join the surviving
trimmed texts with single spaces. -/
theorem event_str_spec (ev : Event) : eventStr ev = specRenderEvent ev := by
  simp only [eventStr, specRenderEvent]
  have h1 : (eventInfoValues ev).flatten
      = ev.triggerInfo ++ ev.modifiers ++ ev.agents ++ ev.comps := by
    simp [eventInfoValues]
  rw [h1, filter_map_trim]

/-! ## Helper lemmas: the split worker -/

theorem splitAux_fuel (sep : List Char) : ∀ (f1 : Nat) (f2 : Nat) (s acc : List Char),
    s.length ≤ f1 → s.length ≤ f2 → splitAux sep f1 s acc = splitAux sep f2 s acc := by
  intro f1
  induction f1 with
  | zero =>
    intro f2 s acc h1 h2
    have hs : s = [] := by
      cases s with
      | nil => rfl
      | cons c rest => simp at h1
    subst hs
    cases f2 <;> rfl
  | succ n ih =>
    intro f2 s acc h1 h2
    cases s with
    | nil => cases f2 <;> rfl
    | cons c rest =>
      cases f2 with
      | zero => simp at h2
      | succ m =>
        simp only [splitAux]
        by_cases hp : sep.isPrefixOf (c :: rest)
        · rw [if_pos hp, if_pos hp]
          have hd : (rest.drop (sep.length - 1)).length ≤ n := by
            simp only [List.length_drop]
            simp only [List.length_cons] at h1
            omega
          have hd2 : (rest.drop (sep.length - 1)).length ≤ m := by
            simp only [List.length_drop]
            simp only [List.length_cons] at h2
            omega
          rw [ih m _ [] hd hd2]
        · rw [if_neg hp, if_neg hp]
          have hr : rest.length ≤ n := by
            simp only [List.length_cons] at h1
            omega
          have hr2 : rest.length ≤ m := by
            simp only [List.length_cons] at h2
            omega
          rw [ih m _ (c :: acc) hr hr2]

theorem splitAux_through (sep : List Char) (hsep : sep ≠ []) :
    ∀ (x y acc : List Char) (fuel : Nat),
      x.length + sep.length + y.length ≤ fuel →
      (∀ i, i < x.length → ¬ sep.isPrefixOf (x.drop i ++ (sep ++ y))) →
      splitAux sep fuel (x ++ sep ++ y) acc = (acc.reverse ++ x) :: pySplit sep y := by
  intro x
  induction x with
  | nil =>
    intro y acc fuel hfuel _
    have hsl : 1 ≤ sep.length := List.length_pos.mpr hsep
    cases fuel with
    | zero => omega
    | succ f =>
      have hylen : y.length ≤ f := by
        simp only [List.length_nil] at hfuel
        omega
      obtain ⟨c, sep', hs⟩ : ∃ c sep', sep = c :: sep' := by
        cases sep with
        | nil => exact absurd rfl hsep
        | cons c sep' => exact ⟨c, sep', rfl⟩
      subst hs
      show splitAux (c :: sep') (f + 1) (c :: (sep' ++ y)) acc
          = (acc.reverse ++ []) :: pySplit (c :: sep') y
      simp only [splitAux]
      rw [if_pos ?hpre]
      case hpre =>
        simp
      have hdrop : (sep' ++ y).drop ((c :: sep').length - 1) = y := by
        simp only [List.length_cons, Nat.add_sub_cancel]
        exact List.drop_left' rfl
      rw [hdrop]
      rw [splitAux_fuel (c :: sep') f y.length y [] hylen (Nat.le_refl _)]
      simp [pySplit]
  | cons c x' ih =>
    intro y acc fuel hfuel hno
    cases fuel with
    | zero =>
      simp only [List.length_cons] at hfuel
      omega
    | succ f =>
      have hshape : (c :: x') ++ sep ++ y = c :: (x' ++ sep ++ y) := by simp
      rw [hshape]
      simp only [splitAux]
      rw [if_neg ?hneg]
      case hneg =>
        have := hno 0 (by simp)
        simpa using this
      have hno' : ∀ i, i < x'.length → ¬ sep.isPrefixOf (x'.drop i ++ (sep ++ y)) := by
        intro i hi
        have := hno (i + 1) (by simp; omega)
        simpa using this

      have hfuel' : x'.length + sep.length + y.length ≤ f := by
        simp only [List.length_cons] at hfuel
        omega
      rw [ih y (c :: acc) f hfuel' hno']
      simp

theorem splitAux_last (sep : List Char) (_hsep : sep ≠ []) :
    ∀ (x acc : List Char) (fuel : Nat), x.length ≤ fuel → ¬ sep <:+: x →
      splitAux sep fuel x acc = [acc.reverse ++ x] := by
  intro x
  induction x with
  | nil =>
    intro acc fuel _ _
    cases fuel <;> simp [splitAux]
  | cons c x' ih =>
    intro acc fuel hfuel hno
    cases fuel with
    | zero =>
      simp only [List.length_cons] at hfuel
      omega
    | succ f =>
      simp only [splitAux]
      rw [if_neg ?hneg]
      case hneg =>
        intro hp
        have hp' : sep <+: c :: x' := by simpa using hp
        obtain ⟨t, ht⟩ := hp'
        exact hno ⟨[], t, by simpa using ht⟩
      have hno' : ¬ sep <:+: x' := by
        intro hsub
        obtain ⟨s, t, hst⟩ := hsub
        exact hno ⟨c :: s, t, by simp [hst]⟩
      have hfuel' : x'.length ≤ f := by
        simp only [List.length_cons] at hfuel
        omega
      rw [ih (c :: acc) f hfuel' hno']
      simp

/-! ## Helper lemmas: where the separator cannot occur -/

theorem occStart_to_sub (sep x y : List Char) (hsep : sep ≠ []) (i : Nat) (hi : i < x.length)
    (hp : sep.isPrefixOf (x.drop i ++ (sep ++ y))) : sep <:+: (x ++ sep.dropLast) := by
  have hp' : sep <+: x.drop i ++ (sep ++ y) := by simpa using hp
  have h1 : x.drop i ++ sep.dropLast <+: x.drop i ++ (sep ++ y) := by
    refine ⟨[sep.getLast hsep] ++ y, ?_⟩
    have hmerge : sep.dropLast ++ ([sep.getLast hsep] ++ y) = sep ++ y := by
      rw [← List.append_assoc, List.dropLast_concat_getLast hsep]
    calc x.drop i ++ sep.dropLast ++ ([sep.getLast hsep] ++ y)
        = x.drop i ++ (sep.dropLast ++ ([sep.getLast hsep] ++ y)) := by
          rw [List.append_assoc]
      _ = x.drop i ++ (sep ++ y) := by rw [hmerge]
  have hlen : sep.length ≤ (x.drop i ++ sep.dropLast).length := by
    simp only [List.length_append, List.length_drop, List.length_dropLast]
    have : 1 ≤ sep.length := List.length_pos.mpr hsep
    omega
  have h2 : sep <+: x.drop i ++ sep.dropLast :=
    List.prefix_of_prefix_length_le hp' h1 hlen
  obtain ⟨t, ht⟩ := h2
  exact ⟨x.take i, t, by
    rw [List.append_assoc, ht, ← List.append_assoc, List.take_append_drop]⟩

theorem sub_space_split (sep a b : List Char) (hsp : (' ' : Char) ∉ sep) (hsep : sep ≠ [])
    (h : sep <:+: a ++ ' ' :: b) : sep <:+: a ∨ sep <:+: b := by
  obtain ⟨s, t, hst⟩ := h
  rw [List.append_assoc] at hst
  rcases List.append_eq_append_iff.mp hst with ⟨a', ha, hb⟩ | ⟨c', ha, hb⟩
  · rcases List.append_eq_append_iff.mp hb with ⟨a'', ha2, _⟩ | ⟨c'', ha2, hb2⟩
    · left
      exact ⟨s, a'', by rw [ha, ha2, List.append_assoc]⟩
    · cases c'' with
      | nil =>
        left
        simp only [List.append_nil] at ha2
        exact ⟨s, [], by simp [ha, ← ha2]⟩
      | cons d c3 =>
        exfalso
        have hd : (' ' : Char) = d ∧ b = c3 ++ t := by
          have : (' ' : Char) :: b = d :: (c3 ++ t) := by simpa using hb2
          exact ⟨by injection this, by injection this⟩
        apply hsp
        rw [ha2, ← hd.1]
        simp
  · cases c' with
    | nil =>
      exfalso
      simp only [List.nil_append] at hb
      cases hs : sep with
      | nil => exact hsep hs
      | cons e es =>
        rw [hs] at hb
        have : (' ' : Char) = e := by
          have : (' ' : Char) :: b = e :: (es ++ t) := by simpa using hb
          injection this
        apply hsp
        rw [hs, ← this]
        simp
    | cons d c3 =>
      right
      have hb' : b = c3 ++ (sep ++ t) := by
        have : (' ' : Char) :: b = d :: (c3 ++ (sep ++ t)) := by simpa using hb
        injection this
      exact ⟨c3, t, by rw [hb', List.append_assoc]⟩

theorem sub_space_cons (sep b : List Char) (hsp : (' ' : Char) ∉ sep) (hsep : sep ≠ [])
    (h : sep <:+: ' ' :: b) : sep <:+: b := by
  have h' : sep <:+: ([] : List Char) ++ ' ' :: b := by simpa using h
  rcases sub_space_split sep [] b hsp hsep h' with h1 | h1
  · exfalso
    obtain ⟨s, t, hst⟩ := h1
    have h0 : s ++ sep = [] ∧ t = [] := List.append_eq_nil.mp hst
    have : sep = [] := (List.append_eq_nil.mp h0.1).2
    exact hsep this
  · exact h1

/-! ## Helper lemmas: stripping -/

theorem dropWhile_ws_cons_neg (c : Char) (l : List Char) (hc : ¬ c.isWhitespace) :
    List.dropWhile Char.isWhitespace (c :: l) = c :: l := by
  simp [List.dropWhile_cons, hc]

theorem dropWhile_ws_cons_sp (l : List Char) :
    List.dropWhile Char.isWhitespace (' ' :: l) = List.dropWhile Char.isWhitespace l := by
  rw [List.dropWhile_cons, if_pos (by decide)]

theorem goodEvent_head (e : List Char) (hg : goodEvent e) :
    ∃ c t, e = c :: t ∧ ¬ c.isWhitespace := by
  obtain ⟨hne, hh, _⟩ := hg
  cases e with
  | nil => exact absurd rfl hne
  | cons c t => exact ⟨c, t, rfl, hh c rfl⟩

theorem goodEvent_rev (e : List Char) (hg : goodEvent e) :
    ∃ c t, e.reverse = c :: t ∧ ¬ c.isWhitespace := by
  obtain ⟨hne, _, hl, _⟩ := hg
  cases hr : e.reverse with
  | nil =>
    exfalso
    exact hne (by simpa using hr)
  | cons c t =>
    refine ⟨c, t, rfl, ?_⟩
    have hlast : e.getLast? = some c := by
      rw [← List.head?_reverse, hr]
      rfl
    exact hl c hlast

theorem dropWhile_ws_append_good (e : List Char) (hg : goodEvent e) (z : List Char) :
    List.dropWhile Char.isWhitespace (e ++ z) = e ++ z := by
  obtain ⟨c, t, he, hc⟩ := goodEvent_head e hg
  rw [he]
  exact dropWhile_ws_cons_neg c (t ++ z) hc

theorem dropWhile_ws_rev_good (e : List Char) (hg : goodEvent e) (z : List Char) :
    List.dropWhile Char.isWhitespace (e.reverse ++ z) = e.reverse ++ z := by
  obtain ⟨c, t, he, hc⟩ := goodEvent_rev e hg
  rw [he]
  exact dropWhile_ws_cons_neg c (t ++ z) hc

theorem pyStrip_good (e : List Char) (hg : goodEvent e) : pyStrip e = e := by
  unfold pyStrip
  have h1 : List.dropWhile Char.isWhitespace e = e := by
    have := dropWhile_ws_append_good e hg []
    simpa using this
  rw [h1]
  have h2 : List.dropWhile Char.isWhitespace e.reverse = e.reverse := by
    have := dropWhile_ws_rev_good e hg []
    simpa using this
  rw [h2, List.reverse_reverse]

theorem pyStrip_sp_left (e : List Char) (hg : goodEvent e) : pyStrip (' ' :: e) = e := by
  unfold pyStrip
  rw [dropWhile_ws_cons_sp]
  have h1 : List.dropWhile Char.isWhitespace e = e := by
    have := dropWhile_ws_append_good e hg []
    simpa using this
  rw [h1]
  have h2 : List.dropWhile Char.isWhitespace e.reverse = e.reverse := by
    have := dropWhile_ws_rev_good e hg []
    simpa using this
  rw [h2, List.reverse_reverse]

theorem pyStrip_sp_right (e : List Char) (hg : goodEvent e) : pyStrip (e ++ [' ']) = e := by
  unfold pyStrip
  rw [dropWhile_ws_append_good e hg [' ']]
  have hrev : (e ++ [' ']).reverse = ' ' :: e.reverse := by
    simp
  rw [hrev, dropWhile_ws_cons_sp]
  have h2 : List.dropWhile Char.isWhitespace e.reverse = e.reverse := by
    have := dropWhile_ws_rev_good e hg []
    simpa using this
  rw [h2, List.reverse_reverse]

theorem pyStrip_seg_mid (e : List Char) (hg : goodEvent e) :
    pyStrip (' ' :: (e ++ [' '])) = e := by
  unfold pyStrip
  rw [dropWhile_ws_cons_sp, dropWhile_ws_append_good e hg [' ']]
  have hrev : (e ++ [' ']).reverse = ' ' :: e.reverse := by
    simp
  rw [hrev, dropWhile_ws_cons_sp]
  have h2 : List.dropWhile Char.isWhitespace e.reverse = e.reverse := by
    have := dropWhile_ws_rev_good e hg []
    simpa using this
  rw [h2, List.reverse_reverse]

theorem pyStrip_seg_last (e : List Char) (hg : goodEvent e) :
    pyStrip (' ' :: (e ++ ' ' :: EVENT_END)) = e ++ ' ' :: EVENT_END := by
  unfold pyStrip
  rw [dropWhile_ws_cons_sp, dropWhile_ws_append_good e hg (' ' :: EVENT_END)]
  have hrev : (e ++ ' ' :: EVENT_END).reverse
      = ']' :: ('e' :: '_' :: 'T' :: 'N' :: 'E' :: 'V' :: 'E' :: '[' :: (' ' :: e.reverse)) := by
    simp [EVENT_END]
  rw [hrev, dropWhile_ws_cons_neg _ _ (by decide)]
  rw [← hrev, List.reverse_reverse]

theorem pyStrip_seg_first (e : List Char) (hg : goodEvent e) :
    pyStrip (EVENT_START ++ (' ' :: (e ++ [' ']))) = EVENT_START ++ (' ' :: e) := by
  unfold pyStrip
  have h1 : List.dropWhile Char.isWhitespace (EVENT_START ++ (' ' :: (e ++ [' '])))
      = EVENT_START ++ (' ' :: (e ++ [' '])) :=
    dropWhile_ws_cons_neg '[' _ (by decide)
  rw [h1]
  have hrev : (EVENT_START ++ (' ' :: (e ++ [' ']))).reverse
      = ' ' :: (e.reverse ++ ([' '] ++ EVENT_START.reverse)) := by
    simp
  rw [hrev, dropWhile_ws_cons_sp, dropWhile_ws_rev_good e hg ([' '] ++ EVENT_START.reverse)]
  simp

theorem pyStrip_seg_single (e : List Char) (_hg : goodEvent e) :
    pyStrip (EVENT_START ++ (' ' :: (e ++ ' ' :: EVENT_END)))
      = EVENT_START ++ (' ' :: (e ++ ' ' :: EVENT_END)) := by
  unfold pyStrip
  have h1 : List.dropWhile Char.isWhitespace (EVENT_START ++ (' ' :: (e ++ ' ' :: EVENT_END)))
      = EVENT_START ++ (' ' :: (e ++ ' ' :: EVENT_END)) :=
    dropWhile_ws_cons_neg '[' _ (by decide)
  rw [h1]
  have hrev : (EVENT_START ++ (' ' :: (e ++ ' ' :: EVENT_END))).reverse
      = ']' :: ('e' :: '_' :: 'T' :: 'N' :: 'E' :: 'V' :: 'E' :: '[' ::
          (' ' :: (e.reverse ++ (' ' :: EVENT_START.reverse)))) := by
    simp [EVENT_END]
  rw [hrev, dropWhile_ws_cons_neg _ _ (by decide), ← hrev, List.reverse_reverse]

/-! ## Helper lemmas: first-occurrence replacement -/

theorem replaceFirst_here (old r : List Char) (hold : old ≠ []) :
    replaceFirst old (old ++ r) = r := by
  obtain ⟨c, old', ho⟩ : ∃ c old', old = c :: old' := by
    cases old with
    | nil => exact absurd rfl hold
    | cons c old' => exact ⟨c, old', rfl⟩
  subst ho
  show replaceFirst (c :: old') (c :: (old' ++ r)) = r
  simp only [replaceFirst]
  rw [if_pos (by simp)]
  show List.drop (c :: old').length ((c :: old') ++ r) = r
  exact List.drop_left _ _

theorem replaceFirst_self (old : List Char) (hold : old ≠ []) :
    replaceFirst old old = [] := by
  have := replaceFirst_here old [] hold
  simpa using this

theorem replaceFirst_tail (old : List Char) (hold : old ≠ []) (hsp : (' ' : Char) ∉ old) :
    ∀ e, ¬ old <:+: e → replaceFirst old (e ++ ' ' :: old) = e ++ [' '] := by
  intro e
  induction e with
  | nil =>
    intro _
    show replaceFirst old (' ' :: old) = [' ']
    simp only [replaceFirst]
    rw [if_neg ?h1]
    case h1 =>
      intro hp
      have hp' : old <+: ' ' :: old := by simpa using hp
      obtain ⟨c, old', ho⟩ : ∃ c old', old = c :: old' := by
        cases old with
        | nil => exact absurd rfl hold
        | cons c old' => exact ⟨c, old', rfl⟩
      rw [ho] at hp'
      have hc : c = ' ' := (List.cons_prefix_cons.mp hp').1
      apply hsp
      rw [ho, hc]
      simp
    rw [replaceFirst_self old hold]
  | cons c e' ih =>
    intro hni
    show replaceFirst old (c :: (e' ++ ' ' :: old)) = (c :: e') ++ [' ']
    simp only [replaceFirst]
    rw [if_neg ?h2]
    case h2 =>
      intro hp
      have hp' : old <+: (c :: e') ++ (' ' :: old) := by simpa using hp
      obtain ⟨t, ht⟩ := hp'
      rcases List.append_eq_append_iff.mp ht with ⟨a', h1, _⟩ | ⟨c', h1, h2⟩
      · exact hni ⟨[], a', by simp [h1]⟩
      · cases c' with
        | nil =>
          simp only [List.append_nil] at h1
          exact hni ⟨[], [], by simp [h1]⟩
        | cons d c3 =>
          have hd : (' ' : Char) = d ∧ old = c3 ++ t := by
            have : (' ' : Char) :: old = d :: (c3 ++ t) := by simpa using h2
            exact ⟨by injection this, by injection this⟩
          apply hsp
          rw [h1, ← hd.1]
          simp
    have hni' : ¬ old <:+: e' := by
      intro hsub
      obtain ⟨s, t, hst⟩ := hsub
      exact hni ⟨c :: s, t, by simp [hst]⟩
    rw [ih hni']
    simp

/-! ## Helper lemmas: markers and non-occurrence of the separator -/

theorem marker_facts :
    (' ' : Char) ∉ EVENT_SEPERATOR ∧ EVENT_SEPERATOR ≠ [] ∧
    ¬ EVENT_SEPERATOR <:+: EVENT_START ∧ ¬ EVENT_SEPERATOR <:+: EVENT_END ∧
    EVENT_START ≠ [] ∧ EVENT_END ≠ [] ∧ (' ' : Char) ∉ EVENT_END := by
  refine ⟨by decide, by decide, ?_, ?_, by decide, by decide, by decide⟩
  · intro h
    obtain ⟨s, t, hst⟩ := h
    have := congrArg List.length hst
    simp [EVENT_SEPERATOR, EVENT_START] at this
    omega
  · intro h
    obtain ⟨s, t, hst⟩ := h
    have := congrArg List.length hst
    simp [EVENT_SEPERATOR, EVENT_END] at this
    omega

theorem sep_not_sub_dropLast : ¬ EVENT_SEPERATOR <:+: EVENT_SEPERATOR.dropLast := by
  intro h
  obtain ⟨s, t, hst⟩ := h
  have := congrArg List.length hst
  simp [EVENT_SEPERATOR] at this
  omega

theorem noSub_mid (e : List Char) (hg : goodEvent e) :
    ¬ EVENT_SEPERATOR <:+: ((' ' :: (e ++ [' '])) ++ EVENT_SEPERATOR.dropLast) := by
  intro h
  have h1 : EVENT_SEPERATOR <:+: ' ' :: (e ++ (' ' :: EVENT_SEPERATOR.dropLast)) := by
    simpa using h
  have h2 := sub_space_cons _ _ marker_facts.1 marker_facts.2.1 h1
  rcases sub_space_split _ _ _ marker_facts.1 marker_facts.2.1 h2 with h3 | h3
  · exact hg.2.2.2.2.1 h3
  · exact sep_not_sub_dropLast h3

theorem noSub_first (e : List Char) (hg : goodEvent e) :
    ¬ EVENT_SEPERATOR <:+: ((EVENT_START ++ (' ' :: (e ++ [' ']))) ++ EVENT_SEPERATOR.dropLast) := by
  intro h
  have h1 : EVENT_SEPERATOR <:+: EVENT_START ++ (' ' :: (e ++ (' ' :: EVENT_SEPERATOR.dropLast))) := by
    simpa using h
  rcases sub_space_split _ _ _ marker_facts.1 marker_facts.2.1 h1 with h2 | h2
  · exact marker_facts.2.2.1 h2
  · rcases sub_space_split _ _ _ marker_facts.1 marker_facts.2.1 h2 with h3 | h3
    · exact hg.2.2.2.2.1 h3
    · exact sep_not_sub_dropLast h3

theorem noSub_last (e : List Char) (hg : goodEvent e) :
    ¬ EVENT_SEPERATOR <:+: (' ' :: (e ++ ' ' :: EVENT_END)) := by
  intro h
  have h2 := sub_space_cons _ _ marker_facts.1 marker_facts.2.1 h
  rcases sub_space_split _ _ _ marker_facts.1 marker_facts.2.1 h2 with h3 | h3
  · exact hg.2.2.2.2.1 h3
  · exact marker_facts.2.2.2.1 h3

theorem noSub_single (e : List Char) (hg : goodEvent e) :
    ¬ EVENT_SEPERATOR <:+: (EVENT_START ++ (' ' :: (e ++ ' ' :: EVENT_END))) := by
  intro h
  rcases sub_space_split _ _ _ marker_facts.1 marker_facts.2.1 h with h2 | h2
  · exact marker_facts.2.2.1 h2
  · rcases sub_space_split _ _ _ marker_facts.1 marker_facts.2.1 h2 with h3 | h3
    · exact hg.2.2.2.2.1 h3
    · exact marker_facts.2.2.2.1 h3

theorem noOcc_of_noSub (x y : List Char)
    (h : ¬ EVENT_SEPERATOR <:+: (x ++ EVENT_SEPERATOR.dropLast)) :
    ∀ i, i < x.length → ¬ EVENT_SEPERATOR.isPrefixOf (x.drop i ++ (EVENT_SEPERATOR ++ y)) :=
  fun i hi hp => h (occStart_to_sub EVENT_SEPERATOR x y marker_facts.2.1 i hi hp)

/-! ## Helper lemmas: splitting a rendered story into its segments -/

theorem pyJoin_cons (sep x : List Char) (xs : List (List Char)) (h : xs ≠ []) :
    pyJoin sep (x :: xs) = x ++ sep ++ pyJoin sep xs := by
  cases xs with
  | nil => exact absurd rfl h
  | cons y ys => rfl

theorem midSegs_cons (e : List Char) (es : List (List Char)) (h : es ≠ []) :
    midSegs (e :: es) = (' ' :: (e ++ [' '])) :: midSegs es := by
  cases es with
  | nil => exact absurd rfl h
  | cons y ys => rfl

theorem midStripped_cons (e : List Char) (es : List (List Char)) (h : es ≠ []) :
    midStripped (e :: es) = e :: midStripped es := by
  cases es with
  | nil => exact absurd rfl h
  | cons y ys => rfl

theorem midStripped_ne (es : List (List Char)) (h : es ≠ []) : midStripped es ≠ [] := by
  cases es with
  | nil => exact absurd rfl h
  | cons e es' => cases es' <;> simp [midStripped]

theorem split_mid : ∀ (es : List (List Char)), es ≠ [] → (∀ e ∈ es, goodEvent e) →
    pySplit EVENT_SEPERATOR
      (' ' :: (pyJoin ([' '] ++ EVENT_SEPERATOR ++ [' ']) es ++ ' ' :: EVENT_END))
      = midSegs es := by
  intro es
  induction es with
  | nil => intro h _; exact absurd rfl h
  | cons e es' ih =>
    intro _ hg
    have hge : goodEvent e := hg e (by simp)
    cases es' with
    | nil =>
      show pySplit EVENT_SEPERATOR (' ' :: (e ++ ' ' :: EVENT_END))
          = [' ' :: (e ++ ' ' :: EVENT_END)]
      unfold pySplit
      rw [splitAux_last EVENT_SEPERATOR marker_facts.2.1 _ [] _ (Nat.le_refl _)
        (noSub_last e hge)]
      rfl
    | cons e2 es'' =>
      have hne' : (e2 :: es'') ≠ [] := by simp
      have hg' : ∀ x ∈ e2 :: es'', goodEvent x := fun x hx => hg x (List.mem_cons_of_mem _ hx)
      have hshape : ' ' :: (pyJoin ([' '] ++ EVENT_SEPERATOR ++ [' ']) (e :: e2 :: es'')
            ++ ' ' :: EVENT_END)
          = (' ' :: (e ++ [' '])) ++ EVENT_SEPERATOR ++
            (' ' :: (pyJoin ([' '] ++ EVENT_SEPERATOR ++ [' ']) (e2 :: es'')
              ++ ' ' :: EVENT_END)) := by
        rw [pyJoin_cons _ _ _ hne']
        simp
      rw [hshape]
      unfold pySplit
      rw [splitAux_through EVENT_SEPERATOR marker_facts.2.1 _ _ [] _ (by simp; omega)
        (noOcc_of_noSub _ _ (noSub_mid e hge))]
      rw [ih hne' hg', midSegs_cons e (e2 :: es'') hne']
      simp

theorem split_render_single (e1 : List Char) (hg1 : goodEvent e1) :
    pySplit EVENT_SEPERATOR (pyRenderStory [e1])
      = [EVENT_START ++ (' ' :: (e1 ++ ' ' :: EVENT_END))] := by
  have hshape : pyRenderStory [e1] = EVENT_START ++ (' ' :: (e1 ++ ' ' :: EVENT_END)) := by
    unfold pyRenderStory
    rw [if_neg (by simp)]
    show EVENT_START ++ [' '] ++ e1 ++ [' '] ++ EVENT_END = _
    simp
  rw [hshape]
  unfold pySplit
  rw [splitAux_last EVENT_SEPERATOR marker_facts.2.1 _ [] _ (Nat.le_refl _)
    (noSub_single e1 hg1)]
  rfl

theorem split_render_multi (e1 e2 : List Char) (es : List (List Char)) (hg1 : goodEvent e1)
    (hg : ∀ e ∈ e2 :: es, goodEvent e) :
    pySplit EVENT_SEPERATOR (pyRenderStory (e1 :: e2 :: es))
      = (EVENT_START ++ (' ' :: (e1 ++ [' ']))) :: midSegs (e2 :: es) := by
  have hshape : pyRenderStory (e1 :: e2 :: es)
      = (EVENT_START ++ (' ' :: (e1 ++ [' ']))) ++ EVENT_SEPERATOR ++
        (' ' :: (pyJoin ([' '] ++ EVENT_SEPERATOR ++ [' ']) (e2 :: es) ++ ' ' :: EVENT_END)) := by
    unfold pyRenderStory
    rw [if_neg (by simp)]
    rw [pyJoin_cons _ _ _ (by simp)]
    simp
  rw [hshape]
  unfold pySplit
  rw [splitAux_through EVENT_SEPERATOR marker_facts.2.1 _ _ [] _ (by simp; omega)
    (noOcc_of_noSub _ _ (noSub_first e1 hg1))]
  rw [split_mid (e2 :: es) (by simp) hg]
  simp

/-! ## Helper lemmas: the marker-stripping stages -/

theorem map_strip_midSegs : ∀ (es : List (List Char)), (∀ e ∈ es, goodEvent e) → es ≠ [] →
    (midSegs es).map pyStrip = midStripped es := by
  intro es
  induction es with
  | nil => intro _ h; exact absurd rfl h
  | cons e es' ih =>
    intro hg _
    have hge : goodEvent e := hg e (by simp)
    cases es' with
    | nil =>
      show [pyStrip (' ' :: (e ++ ' ' :: EVENT_END))] = [e ++ ' ' :: EVENT_END]
      rw [pyStrip_seg_last e hge]
    | cons e2 es'' =>
      rw [midSegs_cons _ _ (by simp), midStripped_cons _ _ (by simp), List.map_cons]
      rw [pyStrip_seg_mid e hge, ih (fun x hx => hg x (List.mem_cons_of_mem _ hx)) (by simp)]

theorem fixLast_cons (x : List Char) (xs : List (List Char)) (h : xs ≠ []) :
    fixLast (x :: xs) = x :: fixLast xs := by
  cases xs with
  | nil => exact absurd rfl h
  | cons y ys => rfl

theorem fixLastElem_end (e : List Char) (hg : goodEvent e) :
    fixLastElem (e ++ ' ' :: EVENT_END) = e := by
  unfold fixLastElem
  rw [if_pos ?hsuf]
  case hsuf =>
    have hs : EVENT_END <:+ e ++ ' ' :: EVENT_END := ⟨e ++ [' '], by simp⟩
    simpa using hs
  rw [replaceFirst_tail EVENT_END marker_facts.2.2.2.2.2.1 marker_facts.2.2.2.2.2.2
    e hg.2.2.2.2.2]
  exact pyStrip_sp_right e hg

theorem fixLast_midStripped : ∀ (es : List (List Char)), (∀ e ∈ es, goodEvent e) → es ≠ [] →
    fixLast (midStripped es) = es := by
  intro es
  induction es with
  | nil => intro _ h; exact absurd rfl h
  | cons e es' ih =>
    intro hg _
    have hge : goodEvent e := hg e (by simp)
    cases es' with
    | nil =>
      show fixLast [e ++ ' ' :: EVENT_END] = [e]
      show [fixLastElem (e ++ ' ' :: EVENT_END)] = [e]
      rw [fixLastElem_end e hge]
    | cons e2 es'' =>
      rw [midStripped_cons _ _ (by simp)]
      rw [fixLast_cons _ _ (midStripped_ne _ (by simp))]
      rw [ih (fun x hx => hg x (List.mem_cons_of_mem _ hx)) (by simp)]

theorem fixHead_first (e1 : List Char) (hg1 : goodEvent e1) (rest : List (List Char)) :
    fixHead ((EVENT_START ++ (' ' :: e1)) :: rest) = e1 :: rest := by
  show (if EVENT_START.isPrefixOf (EVENT_START ++ (' ' :: e1)) then
      pyStrip (replaceFirst EVENT_START (EVENT_START ++ (' ' :: e1)))
    else EVENT_START ++ (' ' :: e1)) :: rest = e1 :: rest
  rw [if_pos (by simp), replaceFirst_here _ _ marker_facts.2.2.2.2.1, pyStrip_sp_left e1 hg1]

theorem filter_good (es : List (List Char)) (hg : ∀ e ∈ es, goodEvent e) :
    es.filter (fun e => !e.isEmpty) = es := by
  rw [List.filter_eq_self]
  intro a ha
  have hne := (hg a ha).1
  simp [hne]

/-! ## Claim theorems: story serialization round-trip -/

/-- C1 counterexample: the event string "a " is non-empty and contains
no marker substring, yet parsing its rendered story yields ["a"], not
["a "] — the parser trims each segment, so events with surrounding
whitespace do not survive the round-trip. -/
theorem story_roundtrip_counterexample :
    (['a', ' '] : List Char) ≠ [] ∧
    ¬ EVENT_START <:+: ['a', ' '] ∧ ¬ EVENT_SEPERATOR <:+: ['a', ' '] ∧
    ¬ EVENT_END <:+: ['a', ' '] ∧
    pyParseStory (pyRenderStory [['a', ' ']]) ≠ [['a', ' ']] := by decide

/-- C1 (amended): for every non-empty list of event strings, each
non-empty, free of leading and trailing whitespace, and containing no
marker substring, parsing the rendered story returns exactly the
original list, in order. -/
theorem story_roundtrip (events : List (List Char)) (hne : events ≠ [])
    (hg : ∀ e ∈ events, goodEvent e) :
    pyParseStory (pyRenderStory events) = events := by
  cases events with
  | nil => exact absurd rfl hne
  | cons e1 rest =>
    have hg1 : goodEvent e1 := hg e1 (by simp)
    cases rest with
    | nil =>
      unfold pyParseStory
      rw [split_render_single e1 hg1, List.map_cons, List.map_nil]
      rw [pyStrip_seg_single e1 hg1]
      have hfh : fixHead [EVENT_START ++ (' ' :: (e1 ++ ' ' :: EVENT_END))]
          = [e1 ++ ' ' :: EVENT_END] := by
        show (if EVENT_START.isPrefixOf (EVENT_START ++ (' ' :: (e1 ++ ' ' :: EVENT_END))) then
            pyStrip (replaceFirst EVENT_START (EVENT_START ++ (' ' :: (e1 ++ ' ' :: EVENT_END))))
          else EVENT_START ++ (' ' :: (e1 ++ ' ' :: EVENT_END))) :: [] = _
        rw [if_pos (by simp), replaceFirst_here _ _ marker_facts.2.2.2.2.1,
          pyStrip_seg_last e1 hg1]
      rw [hfh]
      have hfl : fixLast [e1 ++ ' ' :: EVENT_END] = [e1] := by
        show [fixLastElem (e1 ++ ' ' :: EVENT_END)] = [e1]
        rw [fixLastElem_end e1 hg1]
      rw [hfl]
      exact filter_good [e1] (by
        intro a ha
        simp only [List.mem_singleton] at ha
        rw [ha]
        exact hg1)
    | cons e2 es'' =>
      have hg2 : ∀ x ∈ e2 :: es'', goodEvent x := fun x hx => hg x (List.mem_cons_of_mem _ hx)
      unfold pyParseStory
      rw [split_render_multi e1 e2 es'' hg1 hg2, List.map_cons]
      rw [pyStrip_seg_first e1 hg1]
      rw [map_strip_midSegs (e2 :: es'') hg2 (by simp)]
      rw [fixHead_first e1 hg1 _]
      rw [fixLast_cons _ _ (midStripped_ne _ (by simp))]
      rw [fixLast_midStripped (e2 :: es'') hg2 (by simp)]
      exact filter_good (e1 :: e2 :: es'') hg

theorem story_roundtrip_witness :
    pyParseStory (pyRenderStory [['c', 'a', 't'], ['r', 'u', 'n', 's']])
      = [['c', 'a', 't'], ['r', 'u', 'n', 's']] :=
  story_roundtrip [['c', 'a', 't'], ['r', 'u', 'n', 's']] (by decide) (by decide)

/-- C7: rendering an empty event list produces the empty string, and
parsing the empty string produces the empty event list. -/
theorem empty_story_roundtrip : pyRenderStory [] = [] ∧ pyParseStory [] = [] := by
  exact ⟨rfl, by decide⟩

end EventStoryGen
